import Mathlib

/-!
Shallow embedding of `drive_ya_nuts.py` and verification of its
specification claims.

A puzzle is a list of 7 hexagonal nuts; each nut is a list of 6 marks
(a permutation of `0..5`, counterclockwise).  `puzzle[6]` is the center,
`puzzle[0:6]` the ring.  Marks are `Nat`, tiles are `List Nat`, puzzles
are `List (List Nat)`.  Python dicts `packed`/`unpacked` are modelled by
the insertion-ordered list `tiles0` of their keys; byte strings are
`List Nat` with entries below 256.
-/

namespace DriveYaNuts

/-- Python `align(nut, mark)`: rotate `nut` so the result starts with `mark`
(`k = nut.index(mark); nut[k:] + nut[:k]`). -/
def align (nut : List Nat) (mark : Nat) : List Nat :=
  let k := nut.indexOf mark
  nut.drop k ++ nut.take k

/-- All ways to pick one element out of a list (the element together with the
rest), in the selection order used by `itertools.permutations`. -/
def selects {α : Type} : List α → List (α × List α)
  | [] => []
  | x :: xs => (x, xs) :: (selects xs).map (fun p => (p.1, x :: p.2))

/-- Fueled permutation enumeration; with fuel = length this reproduces the
order of `itertools.permutations`. -/
def permsAux {α : Type} : Nat → List α → List (List α)
  | 0, _ => [[]]
  | n + 1, l => (selects l).flatMap fun p => (permsAux n p.2).map (p.1 :: ·)

/-- The permutations of a list, in the order `itertools.permutations` emits
them. -/
def perms {α : Type} (l : List α) : List (List α) := permsAux l.length l

/-- `permutations(range(1, 6))` in enumeration order. -/
def permsTail : List (List Nat) := perms [1, 2, 3, 4, 5]

/-- The keys of the Python dict `packed` in insertion order: `(0,) + p` for
each permutation `p` of `1..5`; the value of a key is its position here. -/
def tiles0 : List (List Nat) := permsTail.map (0 :: ·)

/-- Models the dict `packed`: the index assigned to a 0-aligned tile. -/
def packedIdx (nut : List Nat) : Nat := tiles0.indexOf nut

/-- Models the dict `unpacked`: the tile stored for an index. -/
def unpackedTile (i : Nat) : List Nat := tiles0.getD i []

/-- `int.from_bytes(bs, byteorder='big')`. -/
def encodeBE (bs : List Nat) : Nat := bs.foldl (fun a b => a * 256 + b) 0

/-- Python `sorted` on integers: ascending order. -/
def sortAsc (l : List Nat) : List Nat := l.insertionSort (· ≤ ·)

/-- Python `pack(puzzle)`: big-endian value of the ascending-sorted indices
of the 0-aligned tiles. -/
def pack (puzzle : List (List Nat)) : Nat :=
  encodeBE (sortAsc (puzzle.map fun nut => packedIdx (align nut 0)))

/-- `index.to_bytes(7, byteorder='big')`. -/
def toBytes7 (n : Nat) : List Nat := (List.range 7).map fun i => n / 256 ^ (6 - i) % 256

/-- Python `unpack(index)`. -/
def unpack (n : Nat) : List (List Nat) := (toBytes7 n).map unpackedTile

/-- The solvedness test of `all_solutions`: for all `k < 6`,
`ring[k][1] == ring[k - 1][-1]` (Python index `-1` is the last entry, and
`ring[-1]` is `ring[5]`). -/
def ringOK (ring : List (List Nat)) : Bool :=
  (List.range 6).all fun k =>
    (ring.getD k []).getD 1 0 == ((ring.getD ((k + 5) % 6) []).getLastD 0)

/-- Python `all_solutions(puzzle)` as the list of yielded arrangements: for
each distinct permutation of the 0-aligned nuts, take the last as center,
rotate each of the first six to face its center mark, and keep the
arrangement when the ring test passes. -/
def all_solutions (puzzle : List (List Nat)) : List (List (List Nat)) :=
  ((perms (puzzle.map fun nut => align nut 0)).dedup).filterMap fun nuts =>
    let c := nuts.getLastD []
    let ring := (c.zip nuts.dropLast).map fun p => align p.2 p.1
    if ringOK ring then some (ring ++ [c]) else none

/-- `itertools.product`, leftmost factor varying slowest. -/
def listProd {α : Type} : List (List α) → List (List α)
  | [] => [[]]
  | l :: ls => l.flatMap fun x => (listProd ls).map (x :: ·)

/-- Python `matching[-1:] + matching[:-1]`. -/
def shiftRight (l : List Nat) : List Nat := l.rotate (l.length - 1)

/-- `zip(matching, center, matching[-1:] + matching[:-1])`, each triple as a
3-element list. -/
def halves (center matching : List Nat) : List (List Nat) :=
  ((matching.zip center).zip (shiftRight matching)).map fun p => [p.1.1, p.1.2, p.2]

/-- `len(set(inner)) == 3`. -/
def innerValid (inner : List Nat) : Bool := inner.dedup.length == 3

/-- The ring tiles generated for one position: the forced triple followed by
each permutation of the remaining marks (`set(range(6)) - set(inner)`). -/
def choices (inner : List Nat) : List (List Nat) :=
  (perms ((List.range 6).filter fun m => !(inner.contains m))).map fun outer => inner ++ outer

/-- The identifiers one `matching` tuple contributes in `all_puzzles`. -/
def contribution (center matching : List Nat) : List Nat :=
  let hs := halves center matching
  if hs.all innerValid then
    (listProd (hs.map choices)).map fun ring => pack (ring ++ [center])
  else []

/-- `product(range(6), repeat=6)`. -/
def matchings : List (List Nat) := listProd (List.replicate 6 (List.range 6))

/-- Python `all_puzzles(center)` as the list of yielded identifiers. -/
def all_puzzles (center : List Nat) : List Nat := matchings.flatMap (contribution center)

/-- The 8 bytes `numpy` writes for one `uint64` on a little-endian host
(also reduces the value modulo `2 ^ 64`, as the `uint64` cast does). -/
def toBytes8LE (n : Nat) : List Nat := (List.range 8).map fun i => n / 256 ^ i % 256

/-- The byte content of the artifact written by `save_puzzles(center)`:
the sorted identifiers, 8 bytes each. -/
def save_bytes (center : List Nat) : List Nat :=
  (sortAsc (all_puzzles center)).flatMap toBytes8LE

/-- `int.from_bytes(bs, byteorder='little')` (defined for any length). -/
def fromBytesLE (bs : List Nat) : Nat := bs.foldr (fun b acc => b + 256 * acc) 0

/-- The reading loop of `load_puzzles`: successive `f.read(8)` chunks until
the stream is exhausted; the final chunk may be shorter than 8 bytes. -/
def chunks8 : List Nat → List (List Nat)
  | [] => []
  | b0 :: b1 :: b2 :: b3 :: b4 :: b5 :: b6 :: b7 :: rest =>
    [b0, b1, b2, b3, b4, b5, b6, b7] :: chunks8 rest
  | l => [l]

/-- What `load_puzzles` yields from a given byte stream. -/
def loadBytes (stream : List Nat) : List Nat := (chunks8 stream).map fromBytesLE

/-- Python `load_puzzles(center)` after `save_puzzles(center)` has run. -/
def load_puzzles (center : List Nat) : List Nat := loadBytes (save_bytes center)

/-- A valid tile: a permutation of the marks `0..5`. -/
def ValidTile (t : List Nat) : Prop := t.Perm (List.range 6)

/-- A valid puzzle: seven valid tiles. -/
def ValidPuzzle (P : List (List Nat)) : Prop := P.length = 7 ∧ ∀ t ∈ P, ValidTile t

/-- The module docstring's solved condition for the arrangement
`ring ++ [center]`: `puzzle[6][k] == puzzle[k][0]` and
`puzzle[k][1] == puzzle[k - 1][-1]` for `k < 6`. -/
def SolvedRing (center : List Nat) (ring : List (List Nat)) : Prop :=
  ∀ k < 6, (ring.getD k []).getD 0 0 = center.getD k 0 ∧
    (ring.getD k []).getD 1 0 = (ring.getD ((k + 5) % 6) []).getD 5 0

/-- `s` is a rotation of `t`. -/
def RotOf (s t : List Nat) : Prop := ∃ n, s = t.rotate n

/-- A concrete solvable puzzle, used to instantiate theorems with hypotheses. -/
def tstP : List (List Nat) :=
  [[2, 0, 1, 3, 4, 5], [3, 1, 2, 0, 4, 5], [4, 2, 3, 0, 1, 5], [5, 3, 4, 0, 1, 2],
    [0, 4, 5, 1, 2, 3], [1, 5, 0, 2, 3, 4], [0, 1, 2, 3, 4, 5]]

/-- One solution of `tstP`, as yielded by `all_solutions`. -/
def tstS : List (List Nat) :=
  [[0, 1, 3, 4, 5, 2], [1, 2, 0, 4, 5, 3], [2, 3, 0, 1, 5, 4], [3, 4, 0, 1, 2, 5],
    [4, 5, 1, 2, 3, 0], [5, 0, 2, 3, 4, 1], [0, 1, 2, 3, 4, 5]]

/-- The 0-aligned permutation of `tstP` from which `all_solutions` builds `tstS`. -/
def tstNuts : List (List Nat) :=
  [[0, 1, 3, 4, 5, 2], [0, 4, 5, 3, 1, 2], [0, 1, 5, 4, 2, 3], [0, 1, 2, 5, 3, 4],
    [0, 4, 5, 1, 2, 3], [0, 2, 3, 4, 1, 5], [0, 1, 2, 3, 4, 5]]

instance : DecidablePred ValidTile := fun t => List.decidablePerm t (List.range 6)

instance : DecidablePred ValidPuzzle := fun P =>
  inferInstanceAs (Decidable (P.length = 7 ∧ ∀ t ∈ P, ValidTile t))

/-! ### Lemmas about `align` -/

theorem align_eq_rotate (l : List Nat) (a : Nat) : align l a = l.rotate (l.indexOf a) := by
  rw [align, List.rotate_eq_drop_append_take List.indexOf_le_length]

theorem rotOf_align (l : List Nat) (a : Nat) : RotOf (align l a) l :=
  ⟨l.indexOf a, align_eq_rotate l a⟩

theorem align_perm (l : List Nat) (a : Nat) : (align l a).Perm l := by
  rw [align_eq_rotate]; exact List.rotate_perm l _

theorem align_cons (l : List Nat) (a : Nat) (h : a ∈ l) :
    ∃ t, align l a = a :: t := by
  have hlt : l.indexOf a < l.length := List.indexOf_lt_length.2 h
  refine ⟨l.drop (l.indexOf a + 1) ++ l.take (l.indexOf a), ?_⟩
  rw [align, List.drop_eq_getElem_cons hlt, List.getElem_indexOf hlt]
  simp

theorem align_headD (l : List Nat) (a d : Nat) (h : a ∈ l) :
    (align l a).headD d = a := by
  obtain ⟨t, ht⟩ := align_cons l a h
  rw [ht]; rfl

theorem align_getD_zero (l : List Nat) (a d : Nat) (h : a ∈ l) :
    (align l a).getD 0 d = a := by
  obtain ⟨t, ht⟩ := align_cons l a h
  rw [ht]; rfl

theorem rotate_eq_of_head? {l r₁ r₂ : List Nat} {i j : Nat} (hl : l.Nodup)
    (hne : l ≠ []) (h₁ : r₁ = l.rotate i) (h₂ : r₂ = l.rotate j)
    (hh : r₁.head? = r₂.head?) : r₁ = r₂ := by
  have hlen : 0 < l.length := List.length_pos.2 hne
  have e₁ : r₁ = l.rotate (i % l.length) := by rw [h₁, List.rotate_mod]
  have e₂ : r₂ = l.rotate (j % l.length) := by rw [h₂, List.rotate_mod]
  have m₁ : i % l.length < l.length := Nat.mod_lt _ hlen
  have m₂ : j % l.length < l.length := Nat.mod_lt _ hlen
  have g₁ : r₁.head? = l[i % l.length]? := by rw [e₁, List.head?_rotate m₁]
  have g₂ : r₂.head? = l[j % l.length]? := by rw [e₂, List.head?_rotate m₂]
  have : i % l.length = j % l.length :=
    List.getElem?_inj m₁ hl (by rw [← g₁, ← g₂, hh])
  rw [e₁, e₂, this]

theorem align_rotate (l : List Nat) (a n : Nat) (hl : l.Nodup) (h : a ∈ l) :
    align (l.rotate n) a = align l a := by
  have hne : l ≠ [] := List.ne_nil_of_mem h
  have h₁ : a ∈ l.rotate n := List.mem_rotate.2 h
  obtain ⟨t₁, e₁⟩ := align_cons (l.rotate n) a h₁
  obtain ⟨t₂, e₂⟩ := align_cons l a h
  exact rotate_eq_of_head? hl hne
    (by rw [align_eq_rotate, List.rotate_rotate])
    (align_eq_rotate l a) (by rw [e₁, e₂]; rfl)

theorem rotOf_trans {a b c : List Nat} (h₁ : RotOf a b) (h₂ : RotOf b c) : RotOf a c := by
  obtain ⟨i, rfl⟩ := h₁
  obtain ⟨j, rfl⟩ := h₂
  exact ⟨j + i, (List.rotate_rotate c j i)⟩

theorem rotOf_perm {a b : List Nat} (h : RotOf a b) : a.Perm b := by
  obtain ⟨i, rfl⟩ := h
  exact List.rotate_perm b i

theorem rotOf_refl (a : List Nat) : RotOf a a := ⟨0, (List.rotate_zero a).symm⟩

/-- For a valid tile, `align(_, 0)` does not see rotations. -/
theorem align_zero_of_rotOf {s t : List Nat} (ht : ValidTile t) (h : RotOf s t) :
    align s 0 = align t 0 := by
  obtain ⟨n, rfl⟩ := h
  have hnd : t.Nodup := ht.nodup_iff.2 (List.nodup_range 6)
  have h0 : 0 ∈ t := ht.mem_iff.2 (List.mem_range.2 (by norm_num))
  exact align_rotate t 0 n hnd h0

/-! ### Lemmas about `selects`, `perms` and `listProd` -/

theorem selects_perm {α : Type} {l : List α} {y : α} {rest : List α}
    (h : (y, rest) ∈ selects l) : (y :: rest).Perm l := by
  induction l generalizing y rest with
  | nil => simp [selects] at h
  | cons x xs ih =>
    rw [selects, List.mem_cons] at h
    rcases h with h | h
    · cases h
      exact List.Perm.refl _
    · obtain ⟨⟨y', r'⟩, hmem, heq⟩ := List.mem_map.1 h
      cases heq
      exact (List.Perm.swap x y' r').trans ((ih hmem).cons x)

theorem selects_length {α : Type} {l : List α} {y : α} {rest : List α}
    (h : (y, rest) ∈ selects l) : rest.length + 1 = l.length :=
  (selects_perm h).length_eq

theorem selects_of_mem {α : Type} [DecidableEq α] {l : List α} {a : α}
    (h : a ∈ l) : (a, l.erase a) ∈ selects l := by
  induction l with
  | nil => simp at h
  | cons x xs ih =>
    rw [selects]
    by_cases hax : a = x
    · subst hax; rw [List.erase_cons_head]; exact List.mem_cons_self _ _
    · have hmem : a ∈ xs := by
        rcases List.mem_cons.1 h with h' | h'
        · exact absurd h' hax
        · exact h'
      rw [List.erase_cons_tail (by simp; exact fun hcon => hax hcon.symm)]
      exact List.mem_cons_of_mem _ (List.mem_map.2 ⟨(a, xs.erase a), ih hmem, rfl⟩)

theorem mem_permsAux {α : Type} [DecidableEq α] :
    ∀ (fuel : Nat) (l t : List α), l.length = fuel →
      (t ∈ permsAux fuel l ↔ t.Perm l) := by
  intro fuel
  induction fuel with
  | zero =>
    intro l t hl
    rw [List.length_eq_zero] at hl
    subst hl
    simp only [permsAux, List.mem_singleton]
    exact ⟨fun h => h ▸ List.Perm.refl _, fun h => h.eq_nil⟩
  | succ n ih =>
    intro l t hl
    rw [permsAux, List.mem_flatMap]
    constructor
    · rintro ⟨⟨y, rest⟩, hsel, hmap⟩
      obtain ⟨u, hu, rfl⟩ := List.mem_map.1 hmap
      have hrest : rest.length = n := by
        have := selects_length hsel
        omega
      exact ((ih rest u hrest).1 hu).cons y |>.trans (selects_perm hsel)
    · intro hperm
      have hne : t ≠ [] := by
        intro h
        subst h
        have hl2 := hperm.length_eq
        rw [hl] at hl2
        simp at hl2
      obtain ⟨y, u, rfl⟩ := List.exists_cons_of_ne_nil hne
      have hy : y ∈ l := hperm.mem_iff.1 (List.mem_cons_self y u)
      have hu : u.Perm (l.erase y) := (List.cons_perm_iff_perm_erase.1 hperm).2
      have hlen : (l.erase y).length = n := by
        have := List.length_erase_of_mem hy
        omega
      exact ⟨(y, l.erase y), selects_of_mem hy,
        List.mem_map.2 ⟨u, (ih _ u hlen).2 hu, rfl⟩⟩

theorem mem_perms {α : Type} [DecidableEq α] {l t : List α} :
    t ∈ perms l ↔ t.Perm l := mem_permsAux l.length l t rfl

theorem perms_ne_nil {α : Type} [DecidableEq α] (l : List α) : perms l ≠ [] := by
  intro h
  have : l ∈ perms l := mem_perms.2 (List.Perm.refl l)
  rw [h] at this
  exact List.not_mem_nil l this

theorem mem_listProd {α : Type} {ls : List (List α)} {t : List α} :
    t ∈ listProd ls ↔ List.Forall₂ (· ∈ ·) t ls := by
  induction ls generalizing t with
  | nil =>
    simp only [listProd, List.mem_singleton, List.forall₂_nil_right_iff]
  | cons l ls ih =>
    rw [listProd, List.mem_flatMap]
    constructor
    · rintro ⟨x, hx, hmap⟩
      obtain ⟨u, hu, rfl⟩ := List.mem_map.1 hmap
      exact List.Forall₂.cons hx (ih.1 hu)
    · intro h
      cases h with
      | cons hx hrest => exact ⟨_, hx, List.mem_map.2 ⟨_, ih.2 hrest, rfl⟩⟩

theorem sum_map_const {α : Type} (c : Nat) (xs : List α) :
    (xs.map fun _ => c).sum = xs.length * c := by
  induction xs with
  | nil => simp
  | cons a xs ih => simp [ih, Nat.succ_mul, Nat.add_comm]

theorem listProd_length {α : Type} (ls : List (List α)) :
    (listProd ls).length = (ls.map List.length).prod := by
  induction ls with
  | nil => rfl
  | cons l ls ih =>
    rw [listProd, List.length_flatMap]
    simp only [Function.comp_def, List.length_map]
    rw [sum_map_const, List.map_cons, List.prod_cons, ih]

/-! ### The lookup tables -/

set_option maxRecDepth 10000

theorem tiles0_length : tiles0.length = 120 := by decide

theorem tiles0_nodup : tiles0.Nodup := by decide

theorem tiles0_forall : ∀ t ∈ tiles0, t.Perm (List.range 6) ∧ t.headD 9 = 0 := by decide

/-- The two `BEq (List Nat)` instances in scope agree, so the Mathlib
`indexOf` lemmas stated over `DecidableEq` apply to `packedIdx`. -/
theorem indexOf_inst_eq (a : List Nat) (l : List (List Nat)) :
    l.indexOf a = @List.indexOf _ instBEqOfDecidableEq a l := by
  unfold List.indexOf
  congr 1
  funext x
  show (x == a) = decide (x = a)
  by_cases h : x = a
  · subst h; simp
  · simp [h]

theorem mem_tiles0 {t : List Nat} (hperm : t.Perm (List.range 6))
    (h0 : t.headD 9 = 0) : t ∈ tiles0 := by
  have hlen : t.length = 5 + 1 := by simpa using hperm.length_eq
  obtain ⟨a, u, rfl⟩ := List.exists_of_length_succ t hlen
  have ha : a = 0 := by simpa using h0
  subst ha
  have hrange : List.range 6 = 0 :: [1, 2, 3, 4, 5] := by decide
  rw [hrange] at hperm
  exact List.mem_map.2 ⟨u, mem_perms.2 hperm.cons_inv, rfl⟩

theorem align_zero_mem_tiles0 {t : List Nat} (h : ValidTile t) :
    align t 0 ∈ tiles0 := by
  have h0 : 0 ∈ t := h.mem_iff.2 (List.mem_range.2 (by norm_num))
  exact mem_tiles0 ((align_perm t 0).trans h) (align_headD t 0 9 h0)

theorem packedIdx_lt {t : List Nat} (h : t ∈ tiles0) : packedIdx t < 120 := by
  rw [packedIdx, indexOf_inst_eq, ← tiles0_length]
  exact List.indexOf_lt_length.2 h

theorem packedIdx_le (t : List Nat) : packedIdx t ≤ 120 := by
  rw [packedIdx, indexOf_inst_eq, ← tiles0_length]
  exact List.indexOf_le_length

theorem unpackedTile_packedIdx {t : List Nat} (h : t ∈ tiles0) :
    unpackedTile (packedIdx t) = t := by
  have hlt : @List.indexOf _ instBEqOfDecidableEq t tiles0 < tiles0.length :=
    List.indexOf_lt_length.2 h
  rw [unpackedTile, packedIdx, indexOf_inst_eq, List.getD_eq_getElem _ _ hlt]
  exact List.getElem_indexOf hlt

theorem packedIdx_inj {s t : List Nat} (hs : s ∈ tiles0) (ht : t ∈ tiles0)
    (h : packedIdx s = packedIdx t) : s = t := by
  have := unpackedTile_packedIdx hs
  rw [h, unpackedTile_packedIdx ht] at this
  exact this.symm

theorem packedIdx_getD {i : Nat} (h : i < 120) : packedIdx (tiles0.getD i []) = i := by
  have hlen : i < tiles0.length := by rw [tiles0_length]; exact h
  rw [List.getD_eq_getElem _ _ hlen, packedIdx, indexOf_inst_eq]
  have hmem : tiles0[i] ∈ tiles0 := List.getElem_mem hlen
  have hlt : @List.indexOf _ instBEqOfDecidableEq tiles0[i] tiles0 < tiles0.length :=
    List.indexOf_lt_length.2 hmem
  exact (List.Nodup.getElem_inj_iff tiles0_nodup).1 (List.getElem_indexOf hlt)

/-! ### Sorting and `pack` invariance -/

theorem sortAsc_perm (l : List Nat) : (sortAsc l).Perm l := List.perm_insertionSort _ l

theorem sortAsc_sorted (l : List Nat) : (sortAsc l).Sorted (· ≤ ·) :=
  List.sorted_insertionSort _ l

theorem sortAsc_congr {l l' : List Nat} (h : l.Perm l') : sortAsc l = sortAsc l' :=
  List.eq_of_perm_of_sorted ((sortAsc_perm l).trans (h.trans (sortAsc_perm l').symm))
    (sortAsc_sorted l) (sortAsc_sorted l')

theorem map_packedIdx_congr : ∀ {Q R : List (List Nat)},
    List.Forall₂ RotOf Q R → (∀ t ∈ R, ValidTile t) →
    Q.map (fun nut => packedIdx (align nut 0)) =
      R.map (fun nut => packedIdx (align nut 0))
  | _, _, List.Forall₂.nil, _ => rfl
  | _, _, List.Forall₂.cons h htail, hR => by
    rw [List.map_cons, List.map_cons,
      align_zero_of_rotOf (hR _ (List.mem_cons_self _ _)) h,
      map_packedIdx_congr htail (fun t ht => hR t (List.mem_cons_of_mem _ ht))]

/-- `pack` only depends on the multiset of tile shapes: if `Q` is a
permutation via `hRP` of a tile-wise rotation `R` of the valid puzzle `P`,
then `pack Q = pack P`. -/
theorem pack_congr {Q R P : List (List Nat)} (hQR : List.Forall₂ RotOf Q R)
    (hRP : R.Perm P) (hP : ∀ t ∈ P, ValidTile t) : pack Q = pack P := by
  have hR : ∀ t ∈ R, ValidTile t := fun t ht => hP t (hRP.mem_iff.1 ht)
  rw [pack, pack, map_packedIdx_congr hQR hR, sortAsc_congr (hRP.map _)]

/-! ### List shapes -/

theorem length_eq_six {α : Type} {l : List α} (h : l.length = 6) :
    ∃ a b c d e f, l = [a, b, c, d, e, f] := by
  have h5 : l.length = 5 + 1 := by omega
  obtain ⟨a, l, rfl⟩ := List.exists_of_length_succ l h5
  have h4 : l.length = 4 + 1 := by simpa using h5
  obtain ⟨b, l, rfl⟩ := List.exists_of_length_succ l h4
  have h3 : l.length = 3 + 1 := by simpa using h4
  obtain ⟨c, l, rfl⟩ := List.exists_of_length_succ l h3
  have h2 : l.length = 2 + 1 := by simpa using h3
  obtain ⟨d, l, rfl⟩ := List.exists_of_length_succ l h2
  have h1 : l.length = 1 + 1 := by simpa using h2
  obtain ⟨e, l, rfl⟩ := List.exists_of_length_succ l h1
  have h0 : l.length = 0 + 1 := by simpa using h1
  obtain ⟨f, l, rfl⟩ := List.exists_of_length_succ l h0
  have : l = [] := List.length_eq_zero.1 (by simpa using h0)
  exact ⟨a, b, c, d, e, f, by rw [this]⟩

theorem length_eq_seven {α : Type} {l : List α} (h : l.length = 7) :
    ∃ a rest, l = a :: rest ∧ rest.length = 6 := by
  have h6 : l.length = 6 + 1 := by omega
  obtain ⟨a, l, rfl⟩ := List.exists_of_length_succ l h6
  exact ⟨a, l, rfl, by simpa using h6⟩

/-! ### Byte encoding and decoding -/

theorem foldlBE (bs : List Nat) (a : Nat) :
    bs.foldl (fun a b => a * 256 + b) a = a * 256 ^ bs.length + encodeBE bs := by
  induction bs generalizing a with
  | nil => simp [encodeBE]
  | cons b bs ih =>
    have e1 : encodeBE (b :: bs) = b * 256 ^ bs.length + encodeBE bs := by
      rw [encodeBE, List.foldl_cons, ih]
      simp
    rw [List.foldl_cons, ih, e1, List.length_cons, pow_succ]
    ring

theorem encodeBE_cons (b : Nat) (bs : List Nat) :
    encodeBE (b :: bs) = b * 256 ^ bs.length + encodeBE bs := by
  rw [encodeBE, List.foldl_cons, foldlBE]
  simp

theorem encodeBE_lt {bs : List Nat} (h : ∀ b ∈ bs, b < 256) :
    encodeBE bs < 256 ^ bs.length := by
  induction bs with
  | nil => simp [encodeBE]
  | cons b bs ih =>
    rw [encodeBE_cons, List.length_cons]
    have hb : b < 256 := h b (List.mem_cons_self _ _)
    have hrec : encodeBE bs < 256 ^ bs.length :=
      ih fun x hx => h x (List.mem_cons_of_mem _ hx)
    calc b * 256 ^ bs.length + encodeBE bs
        < (b + 1) * 256 ^ bs.length := by nlinarith
      _ ≤ 256 * 256 ^ bs.length := Nat.mul_le_mul_right _ (by omega)
      _ = 256 ^ (bs.length + 1) := by ring

theorem encodeBE_eq_zero {bs : List Nat} (h : encodeBE bs = 0) :
    ∀ b ∈ bs, b = 0 := by
  induction bs with
  | nil => simp
  | cons b bs ih =>
    rw [encodeBE_cons] at h
    have hpow : 0 < 256 ^ bs.length := Nat.pos_pow_of_pos _ (by norm_num)
    have hb : b = 0 ∧ encodeBE bs = 0 := by
      constructor
      · nlinarith
      · omega
    intro x hx
    rcases List.mem_cons.1 hx with rfl | hx
    · exact hb.1
    · exact ih hb.2 x hx

theorem toBytes7_eq (n : Nat) : toBytes7 n =
    [n / 256 ^ 6 % 256, n / 256 ^ 5 % 256, n / 256 ^ 4 % 256, n / 256 ^ 3 % 256,
      n / 256 ^ 2 % 256, n / 256 ^ 1 % 256, n / 256 ^ 0 % 256] := rfl

theorem toBytes7_encodeBE {bs : List Nat} (hlen : bs.length = 7)
    (h : ∀ b ∈ bs, b < 256) : toBytes7 (encodeBE bs) = bs := by
  obtain ⟨b0, rest, rfl, h6⟩ := length_eq_seven hlen
  obtain ⟨b1, b2, b3, b4, b5, b6, rfl⟩ := length_eq_six h6
  simp only [List.mem_cons, forall_eq_or_imp] at h
  obtain ⟨h0, h1, h2, h3, h4, h5, h6', -⟩ := h
  rw [toBytes7_eq]
  simp only [encodeBE, List.foldl_cons, List.foldl_nil, List.cons.injEq, and_true]
  norm_num
  omega

theorem toBytes8LE_eq (n : Nat) : toBytes8LE n =
    [n / 256 ^ 0 % 256, n / 256 ^ 1 % 256, n / 256 ^ 2 % 256, n / 256 ^ 3 % 256,
      n / 256 ^ 4 % 256, n / 256 ^ 5 % 256, n / 256 ^ 6 % 256, n / 256 ^ 7 % 256] := rfl

theorem toBytes8LE_length (n : Nat) : (toBytes8LE n).length = 8 := by
  rw [toBytes8LE_eq]; rfl

theorem fromBytesLE_toBytes8LE {n : Nat} (h : n < 256 ^ 8) :
    fromBytesLE (toBytes8LE n) = n := by
  rw [toBytes8LE_eq]
  simp only [fromBytesLE, List.foldr_cons, List.foldr_nil]
  norm_num
  omega

theorem length_eq_eight {α : Type} {l : List α} (h : l.length = 8) :
    ∃ a b rest, l = a :: b :: rest ∧ rest.length = 6 := by
  have h7 : l.length = 7 + 1 := by omega
  obtain ⟨a, l, rfl⟩ := List.exists_of_length_succ l h7
  have h6 : l.length = 6 + 1 := by simpa using h7
  obtain ⟨b, l, rfl⟩ := List.exists_of_length_succ l h6
  exact ⟨a, b, l, rfl, by simpa using h6⟩

theorem chunks8_append {c rest : List Nat} (h : c.length = 8) :
    chunks8 (c ++ rest) = c :: chunks8 rest := by
  obtain ⟨b0, b1, c', rfl, h6⟩ := length_eq_eight h
  obtain ⟨b2, b3, b4, b5, b6, b7, rfl⟩ := length_eq_six h6
  rfl

theorem chunks8_short {t : List Nat} (h0 : t ≠ []) (h8 : t.length < 8) :
    chunks8 t = [t] := by
  rcases t with _ | ⟨b0, _ | ⟨b1, _ | ⟨b2, _ | ⟨b3, _ | ⟨b4, _ | ⟨b5, _ | ⟨b6, _ | ⟨b7, rest⟩⟩⟩⟩⟩⟩⟩⟩
  · exact absurd rfl h0
  · rfl
  · rfl
  · rfl
  · rfl
  · rfl
  · rfl
  · rfl
  · simp at h8
    omega

theorem chunks8_flatMap (ids : List Nat) :
    chunks8 (ids.flatMap toBytes8LE) = ids.map toBytes8LE := by
  induction ids with
  | nil => simp [chunks8]
  | cons i ids ih =>
    rw [List.flatMap_cons, chunks8_append (toBytes8LE_length i), ih, List.map_cons]

theorem loadBytes_flatMap {ids : List Nat} (h : ∀ i ∈ ids, i < 256 ^ 8) :
    loadBytes (ids.flatMap toBytes8LE) = ids := by
  rw [loadBytes, chunks8_flatMap, List.map_map]
  have : ∀ i ∈ ids, (fromBytesLE ∘ toBytes8LE) i = i := fun i hi =>
    fromBytesLE_toBytes8LE (h i hi)
  rw [List.map_congr_left this]
  simp

/-! ### More table helpers -/

theorem range_six : List.range 6 = 0 :: [1, 2, 3, 4, 5] := by decide

theorem cons_zero_mem_tiles0 {p : List Nat} (hp : p.Perm [1, 2, 3, 4, 5]) :
    (0 :: p) ∈ tiles0 :=
  mem_tiles0 (by rw [range_six]; exact hp.cons 0) rfl

theorem tiles0_decomp {t : List Nat} (ht : t ∈ tiles0) :
    ∃ p, p.Perm [1, 2, 3, 4, 5] ∧ t = 0 :: p := by
  obtain ⟨hperm, hhead⟩ := tiles0_forall t ht
  have hlen : t.length = 5 + 1 := by simpa using hperm.length_eq
  obtain ⟨a, u, rfl⟩ := List.exists_of_length_succ t hlen
  have ha : a = 0 := by simpa using hhead
  subst ha
  rw [range_six] at hperm
  exact ⟨u, hperm.cons_inv, rfl⟩

theorem align_cons_zero (rest : List Nat) : align (0 :: rest) 0 = 0 :: rest := by
  rw [align, List.indexOf_cons_self]
  simp

theorem align_mem_tiles0_eq {t : List Nat} (ht : t ∈ tiles0) : align t 0 = t := by
  obtain ⟨p, -, rfl⟩ := tiles0_decomp ht
  exact align_cons_zero p

theorem forall₂_rotOf_mem_left {R P : List (List Nat)}
    (h : List.Forall₂ RotOf R P) : ∀ t ∈ R, ∃ p ∈ P, RotOf t p := by
  induction h with
  | nil => simp
  | cons hrp _ ih =>
    intro t ht
    rcases List.mem_cons.1 ht with rfl | ht
    · exact ⟨_, List.mem_cons_self _ _, hrp⟩
    · obtain ⟨p, hp, hr⟩ := ih t ht
      exact ⟨p, List.mem_cons_of_mem _ hp, hr⟩

/-! ### Claim theorems -/

/-- C6: the lookup tables `packed` and `unpacked` are mutual inverses and
form a bijection between the 120 tiles with leading mark 0 and the indices
`[0, 120)`: `unpacked[packed[(0,)+p]] == (0,)+p` for every permutation `p`
of the marks 1–5, `packed` is injective on those tiles, its values are
below 120, and every index below 120 is attained. -/
theorem C6_packed_unpacked_bijection :
    (∀ p : List Nat, p.Perm [1, 2, 3, 4, 5] →
      unpackedTile (packedIdx (0 :: p)) = 0 :: p ∧ packedIdx (0 :: p) < 120) ∧
    (∀ p q : List Nat, p.Perm [1, 2, 3, 4, 5] → q.Perm [1, 2, 3, 4, 5] →
      packedIdx (0 :: p) = packedIdx (0 :: q) → p = q) ∧
    (∀ i < 120, ∃ p : List Nat, p.Perm [1, 2, 3, 4, 5] ∧ packedIdx (0 :: p) = i) := by
  refine ⟨fun p hp => ?_, fun p q hp hq h => ?_, fun i hi => ?_⟩
  · have hm := cons_zero_mem_tiles0 hp
    exact ⟨unpackedTile_packedIdx hm, packedIdx_lt hm⟩
  · have h2 := packedIdx_inj (cons_zero_mem_tiles0 hp) (cons_zero_mem_tiles0 hq) h
    injection h2
  · have hlen : i < tiles0.length := by rw [tiles0_length]; exact hi
    have hmem : tiles0.getD i [] ∈ tiles0 := by
      rw [List.getD_eq_getElem _ _ hlen]
      exact List.getElem_mem hlen
    obtain ⟨p, hp, he⟩ := tiles0_decomp hmem
    exact ⟨p, hp, by rw [← he, packedIdx_getD hi]⟩

/-- C6 witness: the instance at the identity tail. -/
theorem C6_witness :
    unpackedTile (packedIdx [0, 1, 2, 3, 4, 5]) = [0, 1, 2, 3, 4, 5] ∧
      packedIdx [0, 1, 2, 3, 4, 5] < 120 :=
  C6_packed_unpacked_bijection.1 [1, 2, 3, 4, 5] (by decide)

theorem valid_puzzle_bytes {P : List (List Nat)} (h : ValidPuzzle P) :
    (sortAsc (P.map fun nut => packedIdx (align nut 0))).length = 7 ∧
    ∀ b ∈ sortAsc (P.map fun nut => packedIdx (align nut 0)), b < 256 := by
  constructor
  · rw [(sortAsc_perm _).length_eq, List.length_map, h.1]
  · intro b hb
    have hb' : b ∈ P.map fun nut => packedIdx (align nut 0) :=
      (sortAsc_perm _).mem_iff.1 hb
    obtain ⟨nut, hnut, rfl⟩ := List.mem_map.1 hb'
    have := packedIdx_lt (align_zero_mem_tiles0 (h.2 nut hnut))
    omega

/-- C5: for every valid puzzle `P`, `pack(unpack(pack(P))) == pack(P)`. -/
theorem C5_pack_unpack_pack {P : List (List Nat)} (h : ValidPuzzle P) :
    pack (unpack (pack P)) = pack P := by
  obtain ⟨hlen, hlt⟩ := valid_puzzle_bytes h
  set bytes := sortAsc (P.map fun nut => packedIdx (align nut 0)) with hbytes
  have hup : unpack (pack P) = bytes.map unpackedTile := by
    rw [unpack, pack, ← hbytes, toBytes7_encodeBE hlen hlt]
  have hmapback : (bytes.map unpackedTile).map (fun nut => packedIdx (align nut 0)) = bytes := by
    rw [List.map_map]
    have : ∀ b ∈ bytes, ((fun nut => packedIdx (align nut 0)) ∘ unpackedTile) b = b := by
      intro b hb
      have hb120 : b < 120 := by
        have hb' : b ∈ P.map fun nut => packedIdx (align nut 0) :=
          (sortAsc_perm _).mem_iff.1 hb
        obtain ⟨nut, hnut, rfl⟩ := List.mem_map.1 hb'
        exact packedIdx_lt (align_zero_mem_tiles0 (h.2 nut hnut))
      have hblen : b < tiles0.length := by rw [tiles0_length]; exact hb120
      have hmem : unpackedTile b ∈ tiles0 := by
        rw [unpackedTile, List.getD_eq_getElem _ _ hblen]
        exact List.getElem_mem hblen
      show packedIdx (align (unpackedTile b) 0) = b
      rw [align_mem_tiles0_eq hmem, unpackedTile, packedIdx_getD hb120]
    rw [List.map_congr_left this]
    simp
  have hsorted : bytes.Sorted (· ≤ ·) := by rw [hbytes]; exact sortAsc_sorted _
  have hss : sortAsc bytes = bytes := List.Sorted.insertionSort_eq hsorted
  rw [hup, pack, hmapback, hss]
  rfl

/-- C5 witness: the puzzle of seven identical identity tiles. -/
theorem C5_witness :
    pack (unpack (pack (List.replicate 7 [0, 1, 2, 3, 4, 5]))) =
      pack (List.replicate 7 [0, 1, 2, 3, 4, 5]) :=
  C5_pack_unpack_pack (by constructor <;> decide)

/-- C2: `pack` is invariant under permuting the seven tiles and rotating
each tile independently: if `R` rotates each tile of the valid puzzle `P`
and `Q` permutes `R`, then `pack Q = pack P`. -/
theorem C2_pack_invariance {P R Q : List (List Nat)} (hP : ValidPuzzle P)
    (hRP : List.Forall₂ RotOf R P) (hQR : Q.Perm R) : pack Q = pack P := by
  have hRvalid : ∀ t ∈ R, ValidTile t := by
    intro t ht
    obtain ⟨p, hp, hr⟩ := forall₂_rotOf_mem_left hRP t ht
    exact (rotOf_perm hr).trans (hP.2 p hp)
  have h1 : pack Q = pack R :=
    pack_congr (List.forall₂_same.2 fun x _ => rotOf_refl x) hQR hRvalid
  have h2 : pack R = pack P := pack_congr hRP (List.Perm.refl P) hP.2
  rw [h1, h2]

/-- C2 witness: rotating every tile of the identity puzzle by one step. -/
theorem C2_witness :
    pack (List.replicate 7 [1, 2, 3, 4, 5, 0]) =
      pack (List.replicate 7 [0, 1, 2, 3, 4, 5]) := by
  have hrot : RotOf [1, 2, 3, 4, 5, 0] [0, 1, 2, 3, 4, 5] := ⟨1, by decide⟩
  exact C2_pack_invariance (by constructor <;> decide)
    (List.Forall₂.cons hrot (List.Forall₂.cons hrot (List.Forall₂.cons hrot
      (List.Forall₂.cons hrot (List.Forall₂.cons hrot (List.Forall₂.cons hrot
        (List.Forall₂.cons hrot List.Forall₂.nil)))))))
    (List.Perm.refl _)

/-! ### Decomposing `all_solutions` -/

theorem perm_map_decomp {α β : Type} (f : α → β) :
    ∀ {l₁ l₂ : List β}, l₁.Perm l₂ → ∀ {P : List α}, l₂ = P.map f →
      ∃ R : List α, R.Perm P ∧ l₁ = R.map f := by
  intro l₁ l₂ h
  induction h with
  | nil =>
    intro P hP
    exact ⟨P, List.Perm.refl P, hP⟩
  | cons x h ih =>
    intro P hP
    cases P with
    | nil => simp at hP
    | cons p Ptl =>
      rw [List.map_cons] at hP
      injection hP with h1 h2
      obtain ⟨R, hR, rfl⟩ := ih h2
      exact ⟨p :: R, hR.cons p, by rw [List.map_cons, h1]⟩
  | swap x y l =>
    intro P hP
    cases P with
    | nil => simp at hP
    | cons p Ptl =>
      cases Ptl with
      | nil => simp at hP
      | cons q Ptl =>
        simp only [List.map_cons] at hP
        injection hP with h1 h2
        injection h2 with h2 h3
        exact ⟨q :: p :: Ptl, List.Perm.swap p q Ptl,
          by rw [List.map_cons, List.map_cons, h1, h2, h3]⟩
  | trans h₁ h₂ ih₁ ih₂ =>
    intro P hP
    obtain ⟨M, hM, rfl⟩ := ih₂ hP
    obtain ⟨R, hR, rfl⟩ := ih₁ rfl
    exact ⟨R, hR.trans hM, rfl⟩

theorem forall₂_rotOf_trans : ∀ {a b c : List (List Nat)},
    List.Forall₂ RotOf a b → List.Forall₂ RotOf b c → List.Forall₂ RotOf a c
  | _, _, _, List.Forall₂.nil, List.Forall₂.nil => List.Forall₂.nil
  | _, _, _, List.Forall₂.cons h₁ t₁, List.Forall₂.cons h₂ t₂ =>
    List.Forall₂.cons (rotOf_trans h₁ h₂) (forall₂_rotOf_trans t₁ t₂)

theorem getLastD_eq_getD_five {l : List Nat} (h : l.length = 6) :
    l.getLastD 0 = l.getD 5 0 := by
  obtain ⟨a, b, c, d, e, f, rfl⟩ := length_eq_six h
  rfl

/-- Any yielded arrangement of `all_solutions` decomposes into six ring nuts
aligned to the marks of a 0-aligned center, coming from a permutation of the
0-aligned input nuts, and passing the ring test. -/
theorem all_solutions_cases {P S : List (List Nat)} (hP : ValidPuzzle P)
    (hS : S ∈ all_solutions P) :
    ∃ n0 n1 n2 n3 n4 n5 : List Nat, ∃ c0 c1 c2 c3 c4 c5 : Nat,
      ([n0, n1, n2, n3, n4, n5, [c0, c1, c2, c3, c4, c5]]).Perm
          (P.map fun nut => align nut 0) ∧
      c0 = 0 ∧
      (∀ t ∈ [n0, n1, n2, n3, n4, n5, [c0, c1, c2, c3, c4, c5]], ValidTile t) ∧
      S = [align n0 c0, align n1 c1, align n2 c2, align n3 c3, align n4 c4,
           align n5 c5, [c0, c1, c2, c3, c4, c5]] ∧
      ringOK [align n0 c0, align n1 c1, align n2 c2, align n3 c3, align n4 c4,
           align n5 c5] = true := by
  rw [all_solutions, List.mem_filterMap] at hS
  obtain ⟨nuts, hmem, hf⟩ := hS
  rw [List.mem_dedup, mem_perms] at hmem
  have hlen : nuts.length = 7 := by
    rw [hmem.length_eq, List.length_map, hP.1]
  obtain ⟨n0, rest, rfl, h6⟩ := length_eq_seven hlen
  obtain ⟨n1, n2, n3, n4, n5, n6, rfl⟩ := length_eq_six h6
  have hvalid : ∀ t ∈ [n0, n1, n2, n3, n4, n5, n6], ValidTile t := by
    intro t ht
    have : t ∈ P.map fun nut => align nut 0 := hmem.mem_iff.1 ht
    obtain ⟨p, hp, rfl⟩ := List.mem_map.1 this
    exact (align_perm p 0).trans (hP.2 p hp)
  have h6valid : ValidTile n6 := hvalid n6 (by simp)
  have h6head : n6.headD 9 = 0 := by
    have : n6 ∈ P.map fun nut => align nut 0 := hmem.mem_iff.1 (by simp)
    obtain ⟨p, hp, rfl⟩ := List.mem_map.1 this
    have h0 : 0 ∈ p := (hP.2 p hp).mem_iff.2 (List.mem_range.2 (by norm_num))
    exact align_headD p 0 9 h0
  have h6len : n6.length = 6 := by simpa using h6valid.length_eq
  obtain ⟨c0, c1, c2, c3, c4, c5, rfl⟩ := length_eq_six h6len
  have hc0 : c0 = 0 := by simpa using h6head
  change (if ringOK [align n0 c0, align n1 c1, align n2 c2, align n3 c3,
      align n4 c4, align n5 c5] = true
    then some [align n0 c0, align n1 c1, align n2 c2, align n3 c3, align n4 c4,
      align n5 c5, [c0, c1, c2, c3, c4, c5]]
    else none) = some S at hf
  by_cases hok : ringOK [align n0 c0, align n1 c1, align n2 c2, align n3 c3,
      align n4 c4, align n5 c5] = true
  · rw [if_pos hok] at hf
    injection hf with hf
    exact ⟨n0, n1, n2, n3, n4, n5, c0, c1, c2, c3, c4, c5, hmem, hc0, hvalid,
      hf.symm, hok⟩
  · rw [if_neg hok] at hf
    cases hf

/-- The arrangement `tstS` is among the solutions of `tstP`. -/
theorem tstS_mem : tstS ∈ all_solutions tstP := by
  rw [all_solutions, List.mem_filterMap]
  refine ⟨tstNuts, ?_, by decide⟩
  rw [List.mem_dedup, mem_perms]
  decide

/-- C4: every arrangement `S` yielded by `all_solutions(P)` for a valid
7-tile puzzle `P` satisfies the Solved Arrangement constraints: for all
`k < 6`, edge 0 of ring tile `k` equals edge `k` of the center
(`S[k][0] == S[6][k]`) and edge 1 of ring tile `k` equals the last edge of
ring tile `k - 1` (`S[k][1] == S[(k+5) % 6][5]`). -/
theorem C4_all_solutions_solved {P S : List (List Nat)} (hP : ValidPuzzle P)
    (hS : S ∈ all_solutions P) :
    ∀ k < 6, (S.getD k []).getD 0 0 = (S.getD 6 []).getD k 0 ∧
      (S.getD k []).getD 1 0 = (S.getD ((k + 5) % 6) []).getD 5 0 := by
  obtain ⟨n0, n1, n2, n3, n4, n5, c0, c1, c2, c3, c4, c5, hperm, hc0, hvalid, rfl, hok⟩ :=
    all_solutions_cases hP hS
  have hcvalid : ValidTile [c0, c1, c2, c3, c4, c5] := hvalid _ (by simp)
  have hhead : ∀ (n : List Nat) (c : Nat), ValidTile n → c ∈ [c0, c1, c2, c3, c4, c5] →
      (align n c).getD 0 0 = c := by
    intro n c hn hcmem
    exact align_getD_zero n c 0 (hn.mem_iff.2 (hcvalid.mem_iff.1 hcmem))
  have hlast : ∀ (n : List Nat) (c : Nat), ValidTile n →
      (align n c).getLastD 0 = (align n c).getD 5 0 := by
    intro n c hn
    refine getLastD_eq_getD_five ?_
    rw [(align_perm n c).length_eq]
    simpa using hn.length_eq
  rw [ringOK, List.all_eq_true] at hok
  have e0 := hok 0 (by decide)
  have e1 := hok 1 (by decide)
  have e2 := hok 2 (by decide)
  have e3 := hok 3 (by decide)
  have e4 := hok 4 (by decide)
  have e5 := hok 5 (by decide)
  simp only [List.getD_cons_zero, List.getD_cons_succ, beq_iff_eq,
    Nat.reduceMod, Nat.reduceAdd] at e0 e1 e2 e3 e4 e5
  rw [hlast n5 c5 (hvalid _ (by simp))] at e0
  rw [hlast n0 c0 (hvalid _ (by simp))] at e1
  rw [hlast n1 c1 (hvalid _ (by simp))] at e2
  rw [hlast n2 c2 (hvalid _ (by simp))] at e3
  rw [hlast n3 c3 (hvalid _ (by simp))] at e4
  rw [hlast n4 c4 (hvalid _ (by simp))] at e5
  intro k hk
  interval_cases k <;>
    simp only [List.getD_cons_zero, List.getD_cons_succ, Nat.reduceMod, Nat.reduceAdd] <;>
    exact ⟨hhead _ _ (hvalid _ (by simp)) (by simp), by assumption⟩

theorem forall₂_rotOf_map_align (R : List (List Nat)) :
    List.Forall₂ RotOf (R.map fun nut => align nut 0) R := by
  induction R with
  | nil => exact List.Forall₂.nil
  | cons r R ih => exact List.Forall₂.cons (rotOf_align r 0) ih

/-- C10: every arrangement `S` yielded by `all_solutions(P)` uses exactly
the tiles of `P`: its seven tiles are a permutation `R` of `P` with each
tile rotated, `pack S = pack P`, and the center tile `S[6]` is 0-aligned. -/
theorem C10_solution_tiles {P S : List (List Nat)} (hP : ValidPuzzle P)
    (hS : S ∈ all_solutions P) :
    (∃ R : List (List Nat), List.Forall₂ RotOf S R ∧ R.Perm P) ∧
      pack S = pack P ∧ (S.getD 6 []).getD 0 9 = 0 := by
  obtain ⟨n0, n1, n2, n3, n4, n5, c0, c1, c2, c3, c4, c5, hperm, hc0, hvalid, rfl, hok⟩ :=
    all_solutions_cases hP hS
  obtain ⟨R, hRP, hmapeq⟩ := perm_map_decomp (fun nut => align nut 0) hperm rfl
  have hSnuts : List.Forall₂ RotOf
      [align n0 c0, align n1 c1, align n2 c2, align n3 c3, align n4 c4, align n5 c5,
        [c0, c1, c2, c3, c4, c5]]
      [n0, n1, n2, n3, n4, n5, [c0, c1, c2, c3, c4, c5]] :=
    List.Forall₂.cons (rotOf_align n0 c0) (List.Forall₂.cons (rotOf_align n1 c1)
      (List.Forall₂.cons (rotOf_align n2 c2) (List.Forall₂.cons (rotOf_align n3 c3)
        (List.Forall₂.cons (rotOf_align n4 c4) (List.Forall₂.cons (rotOf_align n5 c5)
          (List.Forall₂.cons (rotOf_refl _) List.Forall₂.nil))))))
  have hnutsR : List.Forall₂ RotOf
      [n0, n1, n2, n3, n4, n5, [c0, c1, c2, c3, c4, c5]] R := by
    rw [hmapeq]
    exact forall₂_rotOf_map_align R
  have hSR := forall₂_rotOf_trans hSnuts hnutsR
  refine ⟨⟨R, hSR, hRP⟩, pack_congr hSR hRP hP.2, ?_⟩
  simp [hc0]

/-- C4 witness: the constraint instance at ring position 2 of `tstS`. -/
theorem C4_witness :
    (tstS.getD 2 []).getD 0 0 = (tstS.getD 6 []).getD 2 0 ∧
      (tstS.getD 2 []).getD 1 0 = (tstS.getD ((2 + 5) % 6) []).getD 5 0 :=
  C4_all_solutions_solved (by decide) tstS_mem 2 (by norm_num)

/-- C10 witness: the solution `tstS` of the concrete puzzle `tstP`. -/
theorem C10_witness :
    (∃ R : List (List Nat), List.Forall₂ RotOf tstS R ∧ R.Perm tstP) ∧
      pack tstS = pack tstP ∧ (tstS.getD 6 []).getD 0 9 = 0 :=
  C10_solution_tiles (by decide) tstS_mem

/-! ### Decomposing `all_puzzles` -/

theorem forall₂_replicate {α β : Type} {R : α → β → Prop} {l : List α} {n : Nat} {b : β} :
    List.Forall₂ R l (List.replicate n b) ↔ l.length = n ∧ ∀ x ∈ l, R x b := by
  induction n generalizing l with
  | zero =>
    cases l <;> simp [List.replicate]
  | succ n ih =>
    cases l with
    | nil => simp [List.replicate]
    | cons a l =>
      simp only [List.replicate, List.forall₂_cons, ih, List.length_cons,
        List.mem_cons, Nat.succ.injEq]
      constructor
      · rintro ⟨hab, hlen, hall⟩
        exact ⟨hlen, fun x hx => by rcases hx with rfl | hx; exact hab; exact hall x hx⟩
      · rintro ⟨hlen, hall⟩
        exact ⟨hall a (Or.inl rfl), hlen, fun x hx => hall x (Or.inr hx)⟩

theorem mem_matchings {m : List Nat} :
    m ∈ matchings ↔ m.length = 6 ∧ ∀ x ∈ m, x < 6 := by
  rw [matchings, mem_listProd, forall₂_replicate]
  simp [List.mem_range]

theorem mem_contribution {center matching : List Nat} {id : Nat} :
    id ∈ contribution center matching ↔
      ((halves center matching).all innerValid = true ∧
        ∃ ring, ring ∈ listProd ((halves center matching).map choices) ∧
          id = pack (ring ++ [center])) := by
  rw [contribution]
  split_ifs with hv
  · simp only [List.mem_map, hv, true_and]
    constructor
    · rintro ⟨ring, hring, rfl⟩
      exact ⟨ring, hring, rfl⟩
    · rintro ⟨ring, hring, rfl⟩
      exact ⟨ring, hring, rfl⟩
  · simp [hv]

theorem halves_length {center matching : List Nat} (hc : center.length = 6)
    (hm : matching.length = 6) : (halves center matching).length = 6 := by
  rw [halves, List.length_map, List.length_zip, List.length_zip, shiftRight,
    List.length_rotate, hm, hc]
  simp

theorem pack_lt {puzzle : List (List Nat)} (h : puzzle.length ≤ 7) :
    pack puzzle < 256 ^ 7 := by
  have hlen : (sortAsc (puzzle.map fun nut => packedIdx (align nut 0))).length ≤ 7 := by
    rw [(sortAsc_perm _).length_eq, List.length_map]
    exact h
  have hbytes : ∀ b ∈ sortAsc (puzzle.map fun nut => packedIdx (align nut 0)), b < 256 := by
    intro b hb
    obtain ⟨nut, -, rfl⟩ := List.mem_map.1 ((sortAsc_perm _).mem_iff.1 hb)
    have := packedIdx_le (align nut 0)
    omega
  calc pack puzzle < 256 ^ (sortAsc (puzzle.map fun nut => packedIdx (align nut 0))).length :=
      encodeBE_lt hbytes
    _ ≤ 256 ^ 7 := Nat.pow_le_pow_right (by norm_num) hlen

theorem all_puzzles_lt {center : List Nat} (hc : center.length = 6) :
    ∀ id ∈ all_puzzles center, id < 256 ^ 7 := by
  intro id hid
  rw [all_puzzles, List.mem_flatMap] at hid
  obtain ⟨matching, hm, hcontrib⟩ := hid
  obtain ⟨-, ring, hring, rfl⟩ := mem_contribution.1 hcontrib
  have hrlen : ring.length = 6 := by
    have := (mem_listProd.1 hring).length_eq
    rw [this, List.length_map, halves_length hc (mem_matchings.1 hm).1]
  refine pack_lt ?_
  simp [hrlen]

/-- C7: for a 0-aligned center tile, the stream read back from the artifact
written by `save_puzzles(center)` is exactly the identifiers yielded by
`all_puzzles(center)` sorted ascending, duplicates preserved. -/
theorem C7_save_load_roundtrip {center : List Nat} (hc : ValidTile center)
    (h0 : center.headD 9 = 0) :
    (load_puzzles center).Perm (all_puzzles center) ∧
      (load_puzzles center).Sorted (· ≤ ·) := by
  have hclen : center.length = 6 := by simpa using hc.length_eq
  have hbound : ∀ i ∈ sortAsc (all_puzzles center), i < 256 ^ 8 := by
    intro i hi
    have h7 := all_puzzles_lt hclen i ((sortAsc_perm _).mem_iff.1 hi)
    calc i < 256 ^ 7 := h7
      _ < 256 ^ 8 := by norm_num
  have hload : load_puzzles center = sortAsc (all_puzzles center) := by
    rw [load_puzzles, save_bytes, loadBytes_flatMap hbound]
  rw [hload]
  exact ⟨sortAsc_perm _, sortAsc_sorted _⟩

/-- C7 witness: the identity center tile. -/
theorem C7_witness :
    (load_puzzles [0, 1, 2, 3, 4, 5]).Perm (all_puzzles [0, 1, 2, 3, 4, 5]) ∧
      (load_puzzles [0, 1, 2, 3, 4, 5]).Sorted (· ≤ ·) :=
  C7_save_load_roundtrip (by decide) rfl

/-- C8 counterexample: loading a truncated artifact does not fail; the
reading loop yields a value decoded little-endian from the short trailing
chunk (here a 3-byte artifact, whose length is not a multiple of 8). -/
theorem C8_counterexample :
    ¬(([1, 2, 3] : List Nat).length % 8 = 0) ∧
      loadBytes [1, 2, 3] = [fromBytesLE [1, 2, 3]] ∧
      fromBytesLE [1, 2, 3] = 197121 := by
  decide

/-- C8 amended: on a truncated artifact (full 8-byte records followed by a
non-empty chunk shorter than 8 bytes) the reading loop of `load_puzzles`
does not abort: it yields every full record and then one extra value decoded
little-endian from the short trailing chunk. -/
theorem C8_truncated_load {ids t : List Nat} (hids : ∀ i ∈ ids, i < 256 ^ 8)
    (h0 : t ≠ []) (h8 : t.length < 8) :
    loadBytes (ids.flatMap toBytes8LE ++ t) = ids ++ [fromBytesLE t] := by
  have hch : ∀ js : List Nat,
      chunks8 (js.flatMap toBytes8LE ++ t) = js.map toBytes8LE ++ [t] := by
    intro js
    induction js with
    | nil => simpa using chunks8_short h0 h8
    | cons i js ih =>
      rw [List.flatMap_cons, List.append_assoc, chunks8_append (toBytes8LE_length i), ih,
        List.map_cons, List.cons_append]
  rw [loadBytes, hch ids, List.map_append, List.map_map]
  have hmap : ∀ i ∈ ids, (fromBytesLE ∘ toBytes8LE) i = i := fun i hi =>
    fromBytesLE_toBytes8LE (hids i hi)
  rw [List.map_congr_left hmap]
  simp

/-- C8 witness: one full record followed by a 3-byte trailing chunk. -/
theorem C8_truncated_load_witness :
    loadBytes (([5].flatMap toBytes8LE) ++ [1, 2, 3]) = [5] ++ [fromBytesLE [1, 2, 3]] :=
  C8_truncated_load (by decide) (by decide) (by decide)

theorem listProd_ne_nil {α : Type} {ls : List (List α)} (h : ∀ l ∈ ls, l ≠ []) :
    listProd ls ≠ [] := by
  induction ls with
  | nil => simp [listProd]
  | cons l ls ih =>
    have hl : l ≠ [] := h l (List.mem_cons_self _ _)
    obtain ⟨x, hx⟩ := List.exists_mem_of_ne_nil l hl
    have hrest : listProd ls ≠ [] := ih fun l' hl' => h l' (List.mem_cons_of_mem _ hl')
    obtain ⟨t, ht⟩ := List.exists_mem_of_ne_nil _ hrest
    exact List.ne_nil_of_mem (mem_listProd.2 (List.Forall₂.cons hx (mem_listProd.1 ht)))

theorem choices_ne_nil (inner : List Nat) : choices inner ≠ [] := by
  rw [choices]
  intro h
  rw [List.map_eq_nil_iff] at h
  exact perms_ne_nil _ h

theorem mem_choices {inner t : List Nat} :
    t ∈ choices inner ↔ ∃ outer : List Nat,
      outer.Perm ((List.range 6).filter fun x => !(inner.contains x)) ∧
      t = inner ++ outer := by
  rw [choices, List.mem_map]
  constructor
  · rintro ⟨outer, ho, rfl⟩
    exact ⟨outer, mem_perms.1 ho, rfl⟩
  · rintro ⟨outer, ho, rfl⟩
    exact ⟨outer, mem_perms.2 ho, rfl⟩

theorem halves_entry_length {center matching : List Nat} :
    ∀ inner ∈ halves center matching, inner.length = 3 := by
  intro inner hin
  obtain ⟨p, -, rfl⟩ := List.mem_map.1 hin
  rfl

/-- C3: the Ring Generator iterates over all `6 ^ 6` matching tuples; a
matching contributes no identifiers exactly when some position `k` has a
forced triple `(matching[k], center[k], matching[k-1])` with fewer than 3
distinct marks; and when every triple is valid the candidate rings are
exactly the Cartesian product, over the 6 positions, of the tiles formed by
the forced triple followed by a permutation of the 3 remaining marks. -/
theorem C3_generator_structure {center : List Nat} (hc : ValidTile center)
    (h0 : center.headD 9 = 0) :
    (matchings.length = 6 ^ 6 ∧
      (∀ m : List Nat, m ∈ matchings ↔ m.length = 6 ∧ ∀ x ∈ m, x < 6) ∧
      all_puzzles center = matchings.flatMap (contribution center)) ∧
    ∀ matching ∈ matchings,
      (∀ k < 6, (halves center matching).getD k [] =
        [matching.getD k 0, center.getD k 0, matching.getD ((k + 5) % 6) 0]) ∧
      (contribution center matching = [] ↔
        ∃ k < 6, ((halves center matching).getD k []).dedup.length < 3) ∧
      ((∀ k < 6, ¬((halves center matching).getD k []).dedup.length < 3) →
        ∀ ring : List (List Nat),
          ring ∈ listProd ((halves center matching).map choices) ↔
            ring.length = 6 ∧ ∀ k < 6, ∃ outer : List Nat,
              ring.getD k [] = (halves center matching).getD k [] ++ outer ∧
              outer.Perm ((List.range 6).filter
                fun x => !(((halves center matching).getD k []).contains x))) := by
  have hc6 : center.length = 6 := by simpa using hc.length_eq
  refine ⟨⟨by rw [matchings, listProd_length]; decide, fun m => mem_matchings, rfl⟩, ?_⟩
  intro matching hm
  have hm6 : matching.length = 6 := (mem_matchings.1 hm).1
  have hh6 : (halves center matching).length = 6 := halves_length hc6 hm6
  refine ⟨?_, ?_, ?_⟩
  · obtain ⟨c0, c1, c2, c3, c4, c5, rfl⟩ := length_eq_six hc6
    obtain ⟨m0, m1, m2, m3, m4, m5, rfl⟩ := length_eq_six hm6
    intro k hk
    interval_cases k <;> rfl
  · rw [contribution]
    constructor
    · intro hnil
      by_cases hv : (halves center matching).all innerValid = true
      · rw [if_pos hv] at hnil
        rw [List.map_eq_nil_iff] at hnil
        exact absurd hnil (listProd_ne_nil (by
          intro l hl
          obtain ⟨inner, -, rfl⟩ := List.mem_map.1 hl
          exact choices_ne_nil inner))
      · rw [List.all_eq_true] at hv
        push_neg at hv
        obtain ⟨inner, hin, hival⟩ := hv
        obtain ⟨k, hk, hEq⟩ := List.mem_iff_getElem.1 hin
        refine ⟨k, by omega, ?_⟩
        rw [List.getD_eq_getElem _ _ hk, hEq]
        have h3 : inner.length = 3 := halves_entry_length inner hin
        have hle : inner.dedup.length ≤ 3 := h3 ▸ inner.dedup_sublist.length_le
        have hne : ¬(inner.dedup.length == 3) = true := hival
        simp only [beq_iff_eq] at hne
        omega
    · rintro ⟨k, hk, hkval⟩
      have hklt : k < (halves center matching).length := by omega
      have hval : ¬((halves center matching).all innerValid = true) := by
        rw [List.all_eq_true]
        intro hall
        have := hall ((halves center matching).getD k []) (by
          rw [List.getD_eq_getElem _ _ hklt]
          exact List.getElem_mem hklt)
        rw [innerValid, beq_iff_eq] at this
        omega
      rw [if_neg hval]
  · intro hval ring
    rw [mem_listProd, List.forall₂_map_right_iff, List.forall₂_iff_get]
    constructor
    · rintro ⟨hlen, hget⟩
      refine ⟨by omega, ?_⟩
      intro k hk
      have h1 : k < ring.length := by omega
      have h2 : k < (halves center matching).length := by omega
      have := hget k h1 h2
      rw [mem_choices] at this
      obtain ⟨outer, ho, hEq⟩ := this
      simp only [List.get_eq_getElem] at hEq ho
      refine ⟨outer, ?_, ?_⟩
      · rw [List.getD_eq_getElem _ _ h1, List.getD_eq_getElem _ _ h2]
        exact hEq
      · rw [List.getD_eq_getElem _ _ h2]
        exact ho
    · rintro ⟨hlen, hget⟩
      refine ⟨by omega, ?_⟩
      intro k h1 h2
      obtain ⟨outer, hEq, ho⟩ := hget k (by omega)
      rw [List.getD_eq_getElem _ _ h1] at hEq
      rw [List.getD_eq_getElem _ _ h2] at hEq ho
      simp only [List.get_eq_getElem]
      rw [mem_choices]
      exact ⟨outer, ho, hEq⟩

/-- C3 witness: the pruning criterion at the identity center and a concrete
valid matching tuple. -/
theorem C3_witness :
    contribution [0, 1, 2, 3, 4, 5] [2, 3, 4, 5, 0, 1] = [] ↔
      ∃ k < 6, ((halves [0, 1, 2, 3, 4, 5] [2, 3, 4, 5, 0, 1]).getD k []).dedup.length < 3 :=
  ((@C3_generator_structure [0, 1, 2, 3, 4, 5] (by decide) (by decide)).2 [2, 3, 4, 5, 0, 1]
    (mem_matchings.2 ⟨rfl, by decide⟩)).2.1

theorem packedIdx_eq_zero {t : List Nat} (h : packedIdx t = 0) : t = [0, 1, 2, 3, 4, 5] := by
  have hmem : t ∈ tiles0 := by
    by_contra hns
    have hlen : @List.indexOf _ instBEqOfDecidableEq t tiles0 = tiles0.length :=
      List.indexOf_eq_length.2 hns
    rw [packedIdx, indexOf_inst_eq] at h
    rw [h] at hlen
    rw [tiles0_length] at hlen
    exact absurd hlen.symm (by norm_num)
  have hlt : @List.indexOf _ instBEqOfDecidableEq t tiles0 < tiles0.length :=
    List.indexOf_lt_length.2 hmem
  have hg := List.getElem_indexOf hlt
  rw [packedIdx, indexOf_inst_eq] at h
  simp only [h] at hg
  have h0lt : 0 < tiles0.length := by rw [tiles0_length]; norm_num
  have hD : tiles0.getD 0 [] = [0, 1, 2, 3, 4, 5] := by decide
  rw [List.getD_eq_getElem _ _ h0lt] at hD
  rw [hD] at hg
  exact hg.symm

theorem eq_rotate_of_align {t : List Nat} (h : align t 0 = [0, 1, 2, 3, 4, 5]) :
    ∃ j < 6, t = List.rotate [0, 1, 2, 3, 4, 5] j := by
  have hlen : t.length = 6 := by
    have := (align_perm t 0).length_eq
    rw [h] at this
    simpa using this.symm
  have hr : t.rotate (t.indexOf 0) = [0, 1, 2, 3, 4, 5] := by
    rw [← align_eq_rotate]
    exact h
  rw [List.rotate_eq_iff] at hr
  obtain ⟨A, hA⟩ : ∃ A, t = List.rotate [0, 1, 2, 3, 4, 5] A := ⟨_, hr⟩
  refine ⟨A % 6, Nat.mod_lt _ (by norm_num), ?_⟩
  rw [hA]
  have h6 : (6 : Nat) = ([0, 1, 2, 3, 4, 5] : List Nat).length := rfl
  rw [h6, List.rotate_mod]

theorem triple_of_rotate {j : Nat} (hj : j < 6) {a b c : Nat} {o : List Nat}
    (h : [a, b, c] ++ o = List.rotate [0, 1, 2, 3, 4, 5] j) :
    b = (a + 1) % 6 ∧ c = (a + 2) % 6 := by
  interval_cases j <;>
    rw [List.rotate_eq_drop_append_take (by norm_num)] at h <;>
    simp at h <;>
    omega

/-- C9: with center `(0,1,2,3,4,5)`, `all_puzzles` never yields the
identifier of seven identity tiles: that identifier is 0, and the
all-identical-tile ring violates the edge-1/edge-5 matching constraints, so
0 is absent from the generator's output. -/
theorem C9_identity_absent :
    pack (List.replicate 7 [0, 1, 2, 3, 4, 5]) = 0 ∧
      0 ∉ all_puzzles [0, 1, 2, 3, 4, 5] := by
  refine ⟨by decide, ?_⟩
  intro hmem
  rw [all_puzzles, List.mem_flatMap] at hmem
  obtain ⟨matching, hm, hcontrib⟩ := hmem
  obtain ⟨hv, ring, hring, hpack⟩ := mem_contribution.1 hcontrib
  have hz : ∀ t ∈ ring ++ [[0, 1, 2, 3, 4, 5]], packedIdx (align t 0) = 0 := by
    intro t ht
    have h1 : packedIdx (align t 0) ∈
        (ring ++ [[0, 1, 2, 3, 4, 5]]).map fun nut => packedIdx (align nut 0) :=
      List.mem_map_of_mem _ ht
    have h2 : packedIdx (align t 0) ∈
        sortAsc ((ring ++ [[0, 1, 2, 3, 4, 5]]).map fun nut => packedIdx (align nut 0)) :=
      (sortAsc_perm _).mem_iff.2 h1
    exact encodeBE_eq_zero hpack.symm _ h2
  have hm6 : matching.length = 6 := (mem_matchings.1 hm).1
  obtain ⟨m0, m1, m2, m3, m4, m5, rfl⟩ := length_eq_six hm6
  have hhs : halves [0, 1, 2, 3, 4, 5] [m0, m1, m2, m3, m4, m5] =
      [[m0, 0, m5], [m1, 1, m0], [m2, 2, m1], [m3, 3, m2], [m4, 4, m3], [m5, 5, m4]] := rfl
  rw [hhs, List.map_cons, List.map_cons, List.map_cons, List.map_cons, List.map_cons,
    List.map_cons, List.map_nil] at hring
  rw [mem_listProd] at hring
  simp only [List.forall₂_cons_right_iff, List.forall₂_nil_right_iff] at hring
  obtain ⟨t0, l1, ht0, ⟨t1, l2, ht1, ⟨t2, l3, ht2, ⟨t3, l4, ht3, ⟨t4, l5, ht4,
    ⟨t5, l6, ht5, rfl, rfl⟩, rfl⟩, rfl⟩, rfl⟩, rfl⟩, rfl⟩ := hring
  have step : ∀ (t : List Nat) (a b c : Nat), t ∈ choices [a, b, c] →
      packedIdx (align t 0) = 0 → b = (a + 1) % 6 ∧ c = (a + 2) % 6 := by
    intro t a b c htc hzz
    obtain ⟨outer, ho, rfl⟩ := mem_choices.1 htc
    obtain ⟨j, hj, hrot⟩ := eq_rotate_of_align (packedIdx_eq_zero hzz)
    exact triple_of_rotate hj hrot
  have e0 := step t0 m0 0 m5 ht0 (hz t0 (by simp))
  have e1 := step t1 m1 1 m0 ht1 (hz t1 (by simp))
  have e2 := step t2 m2 2 m1 ht2 (hz t2 (by simp))
  have e3 := step t3 m3 3 m2 ht3 (hz t3 (by simp))
  have e4 := step t4 m4 4 m3 ht4 (hz t4 (by simp))
  have e5 := step t5 m5 5 m4 ht5 (hz t5 (by simp))
  omega

theorem length_eq_three {α : Type} {l : List α} (h : l.length = 3) :
    ∃ a b c, l = [a, b, c] := by
  have h2 : l.length = 2 + 1 := by omega
  obtain ⟨a, l, rfl⟩ := List.exists_of_length_succ l h2
  have h1 : l.length = 1 + 1 := by simpa using h2
  obtain ⟨b, l, rfl⟩ := List.exists_of_length_succ l h1
  have h0 : l.length = 0 + 1 := by simpa using h1
  obtain ⟨c, l, rfl⟩ := List.exists_of_length_succ l h0
  have : l = [] := List.length_eq_zero.1 (by simpa using h0)
  exact ⟨a, b, c, by rw [this]⟩

theorem dedup_full {l : List Nat} (h : l.dedup.length = l.length) : l.Nodup := by
  have := List.Sublist.eq_of_length l.dedup_sublist h
  rw [← this]
  exact l.nodup_dedup

theorem perm_append_filter {sub l : List Nat} (hsub : sub.Nodup)
    (hmem : ∀ x ∈ sub, x ∈ l) (hl : l.Nodup) :
    (sub ++ l.filter fun x => !(sub.contains x)).Perm l := by
  refine (List.perm_ext_iff_of_nodup ?_ hl).2 ?_
  · rw [List.nodup_append]
    refine ⟨hsub, hl.filter _, ?_⟩
    intro a ha hafilter
    rw [List.mem_filter] at hafilter
    have h2 := hafilter.2
    simp at h2
    exact h2 ha
  · intro a
    rw [List.mem_append, List.mem_filter]
    constructor
    · rintro (h | ⟨hl', -⟩)
      · exact hmem a h
      · exact hl'
    · intro hal
      by_cases hs : a ∈ sub
      · exact Or.inl hs
      · refine Or.inr ⟨hal, ?_⟩
        simpa using hs

theorem perm_filter_compl {sub rest l : List Nat} (h : (sub ++ rest).Perm l)
    (hl : l.Nodup) :
    rest.Perm (l.filter fun x => !(sub.contains x)) := by
  have hnd : (sub ++ rest).Nodup := h.nodup_iff.2 hl
  rw [List.nodup_append] at hnd
  obtain ⟨hsub, hrest, hdisj⟩ := hnd
  refine (List.perm_ext_iff_of_nodup hrest (hl.filter _)).2 ?_
  intro a
  rw [List.mem_filter]
  constructor
  · intro ha
    refine ⟨h.mem_iff.1 (List.mem_append_right _ ha), ?_⟩
    simpa using fun hs => hdisj hs ha
  · rintro ⟨hal, hns⟩
    simp at hns
    have hm := h.mem_iff.2 hal
    rw [List.mem_append] at hm
    rcases hm with hs | hr
    · exact absurd hs hns
    · exact hr

theorem align_second {m c : Nat} {rest : List Nat} (h : m ≠ c) :
    align (m :: c :: rest) c = (c :: rest) ++ [m] := by
  have hidx : (m :: c :: rest).indexOf c = 1 := by
    rw [List.indexOf_cons_ne _ h, List.indexOf_cons_self]
  show (m :: c :: rest).drop ((m :: c :: rest).indexOf c) ++
    (m :: c :: rest).take ((m :: c :: rest).indexOf c) = (c :: rest) ++ [m]
  rw [hidx]
  rfl

theorem sound_step {mk ck mkm : Nat} {t : List Nat}
    (ht : t ∈ choices [mk, ck, mkm]) (hval : innerValid [mk, ck, mkm] = true)
    (hmk : mk < 6) (hck : ck < 6) (hmkm : mkm < 6) :
    ∃ o1 o2 o3 : Nat, t = [mk, ck, mkm, o1, o2, o3] ∧
      align t ck = [ck, mkm, o1, o2, o3, mk] ∧ ValidTile t := by
  obtain ⟨outer, ho, rfl⟩ := mem_choices.1 ht
  have hnd : ([mk, ck, mkm] : List Nat).Nodup := by
    refine dedup_full ?_
    rw [innerValid, beq_iff_eq] at hval
    rw [hval]
    rfl
  have hsub : ∀ x ∈ ([mk, ck, mkm] : List Nat), x ∈ List.range 6 := by
    intro x hx
    rw [List.mem_range]
    simp only [List.mem_cons, List.not_mem_nil, or_false] at hx
    rcases hx with rfl | rfl | rfl
    · exact hmk
    · exact hck
    · exact hmkm
  have hperm6 : (([mk, ck, mkm] : List Nat) ++ outer).Perm (List.range 6) :=
    (List.Perm.append_left _ ho).trans (perm_append_filter hnd hsub (List.nodup_range 6))
  have hlen3 : outer.length = 3 := by
    have h1 := hperm6.length_eq
    simp at h1
    omega
  obtain ⟨o1, o2, o3, rfl⟩ := length_eq_three hlen3
  have hne : mk ≠ ck := by
    intro hEq
    rw [hEq] at hnd
    simp at hnd
  exact ⟨o1, o2, o3, rfl, align_second hne, hperm6⟩

theorem all_puzzles_sound {center : List Nat} (hc : ValidTile center)
    {id : Nat} (hid : id ∈ all_puzzles center) :
    ∃ ring : List (List Nat), ring.length = 6 ∧ (∀ t ∈ ring, ValidTile t) ∧
      SolvedRing center ring ∧ pack (ring ++ [center]) = id := by
  have hc6 : center.length = 6 := by simpa using hc.length_eq
  have hcmem : ∀ x ∈ center, x < 6 := fun x hx => List.mem_range.1 (hc.mem_iff.1 hx)
  rw [all_puzzles, List.mem_flatMap] at hid
  obtain ⟨matching, hm, hcontrib⟩ := hid
  obtain ⟨hv, ring', hring, rfl⟩ := mem_contribution.1 hcontrib
  have hmlt : ∀ x ∈ matching, x < 6 := (mem_matchings.1 hm).2
  obtain ⟨m0, m1, m2, m3, m4, m5, rfl⟩ := length_eq_six (mem_matchings.1 hm).1
  obtain ⟨c0, c1, c2, c3, c4, c5, rfl⟩ := length_eq_six hc6
  have hhs : halves [c0, c1, c2, c3, c4, c5] [m0, m1, m2, m3, m4, m5] =
      [[m0, c0, m5], [m1, c1, m0], [m2, c2, m1], [m3, c3, m2], [m4, c4, m3],
        [m5, c5, m4]] := rfl
  rw [hhs] at hring hv
  rw [List.map_cons, List.map_cons, List.map_cons, List.map_cons, List.map_cons,
    List.map_cons, List.map_nil, mem_listProd] at hring
  simp only [List.forall₂_cons_right_iff, List.forall₂_nil_right_iff] at hring
  obtain ⟨t0, l1, ht0, ⟨t1, l2, ht1, ⟨t2, l3, ht2, ⟨t3, l4, ht3, ⟨t4, l5, ht4,
    ⟨t5, l6, ht5, rfl, rfl⟩, rfl⟩, rfl⟩, rfl⟩, rfl⟩, rfl⟩ := hring
  rw [List.all_eq_true] at hv
  obtain ⟨a1, a2, a3, he0, ha0, hv0⟩ := sound_step ht0 (hv _ (by simp))
    (hmlt m0 (by simp)) (hcmem c0 (by simp)) (hmlt m5 (by simp))
  obtain ⟨b1, b2, b3, he1, ha1, hv1⟩ := sound_step ht1 (hv _ (by simp))
    (hmlt m1 (by simp)) (hcmem c1 (by simp)) (hmlt m0 (by simp))
  obtain ⟨d1, d2, d3, he2, ha2, hv2⟩ := sound_step ht2 (hv _ (by simp))
    (hmlt m2 (by simp)) (hcmem c2 (by simp)) (hmlt m1 (by simp))
  obtain ⟨e1, e2, e3, he3, ha3, hv3⟩ := sound_step ht3 (hv _ (by simp))
    (hmlt m3 (by simp)) (hcmem c3 (by simp)) (hmlt m2 (by simp))
  obtain ⟨f1, f2, f3, he4, ha4, hv4⟩ := sound_step ht4 (hv _ (by simp))
    (hmlt m4 (by simp)) (hcmem c4 (by simp)) (hmlt m3 (by simp))
  obtain ⟨g1, g2, g3, he5, ha5, hv5⟩ := sound_step ht5 (hv _ (by simp))
    (hmlt m5 (by simp)) (hcmem c5 (by simp)) (hmlt m4 (by simp))
  refine ⟨[[c0, m5, a1, a2, a3, m0], [c1, m0, b1, b2, b3, m1], [c2, m1, d1, d2, d3, m2],
    [c3, m2, e1, e2, e3, m3], [c4, m3, f1, f2, f3, m4], [c5, m4, g1, g2, g3, m5]],
    rfl, ?_, ?_, ?_⟩
  · intro t ht
    simp only [List.mem_cons, List.not_mem_nil, or_false] at ht
    rcases ht with rfl | rfl | rfl | rfl | rfl | rfl
    · exact ha0 ▸ (align_perm t0 c0).trans hv0
    · exact ha1 ▸ (align_perm t1 c1).trans hv1
    · exact ha2 ▸ (align_perm t2 c2).trans hv2
    · exact ha3 ▸ (align_perm t3 c3).trans hv3
    · exact ha4 ▸ (align_perm t4 c4).trans hv4
    · exact ha5 ▸ (align_perm t5 c5).trans hv5
  · intro k hk
    interval_cases k <;> exact ⟨rfl, rfl⟩
  · refine pack_congr (Q := _) (R := [t0, t1, t2, t3, t4, t5, [c0, c1, c2, c3, c4, c5]])
      ?_ (List.Perm.refl _) ?_
    · exact List.Forall₂.cons (ha0 ▸ rotOf_align t0 c0)
        (List.Forall₂.cons (ha1 ▸ rotOf_align t1 c1)
          (List.Forall₂.cons (ha2 ▸ rotOf_align t2 c2)
            (List.Forall₂.cons (ha3 ▸ rotOf_align t3 c3)
              (List.Forall₂.cons (ha4 ▸ rotOf_align t4 c4)
                (List.Forall₂.cons (ha5 ▸ rotOf_align t5 c5)
                  (List.Forall₂.cons (rotOf_refl _) List.Forall₂.nil))))))
    · intro t ht
      simp only [List.cons_append, List.nil_append, List.mem_cons,
        List.not_mem_nil, or_false] at ht
      rcases ht with rfl | rfl | rfl | rfl | rfl | rfl | rfl
      · exact hv0
      · exact hv1
      · exact hv2
      · exact hv3
      · exact hv4
      · exact hv5
      · exact hc

theorem complete_step {x0 x1 x2 x3 x4 x5 : Nat}
    (hv : ValidTile [x0, x1, x2, x3, x4, x5]) :
    [x5, x0, x1, x2, x3, x4] ∈ choices [x5, x0, x1] ∧
      innerValid [x5, x0, x1] = true ∧
      RotOf [x5, x0, x1, x2, x3, x4] [x0, x1, x2, x3, x4, x5] := by
  have hrot : ([x5, x0, x1, x2, x3, x4] : List Nat) =
      List.rotate [x0, x1, x2, x3, x4, x5] 5 := rfl
  have hperm6 : (([x5, x0, x1] : List Nat) ++ [x2, x3, x4]).Perm (List.range 6) := by
    show ([x5, x0, x1, x2, x3, x4] : List Nat).Perm (List.range 6)
    rw [hrot]
    exact (List.rotate_perm _ _).trans hv
  have hnd : ([x5, x0, x1] : List Nat).Nodup :=
    List.Nodup.of_append_left (hperm6.nodup_iff.2 (List.nodup_range 6))
  refine ⟨mem_choices.2 ⟨[x2, x3, x4], perm_filter_compl hperm6 (List.nodup_range 6), rfl⟩,
    ?_, ⟨5, hrot⟩⟩
  rw [innerValid, beq_iff_eq, List.Nodup.dedup hnd]
  rfl

theorem all_puzzles_complete {center : List Nat} (hc : ValidTile center)
    {id : Nat} {ring : List (List Nat)} (hlen : ring.length = 6)
    (hvalid : ∀ t ∈ ring, ValidTile t) (hsol : SolvedRing center ring)
    (hpack : pack (ring ++ [center]) = id) : id ∈ all_puzzles center := by
  have hc6 : center.length = 6 := by simpa using hc.length_eq
  obtain ⟨c0, c1, c2, c3, c4, c5, rfl⟩ := length_eq_six hc6
  obtain ⟨r0, r1, r2, r3, r4, r5, rfl⟩ := length_eq_six hlen
  have hv0 : ValidTile r0 := hvalid _ (by simp)
  have hv1 : ValidTile r1 := hvalid _ (by simp)
  have hv2 : ValidTile r2 := hvalid _ (by simp)
  have hv3 : ValidTile r3 := hvalid _ (by simp)
  have hv4 : ValidTile r4 := hvalid _ (by simp)
  have hv5 : ValidTile r5 := hvalid _ (by simp)
  obtain ⟨a0, a1, a2, a3, a4, a5, rfl⟩ := length_eq_six (by simpa using hv0.length_eq)
  obtain ⟨b0, b1, b2, b3, b4, b5, rfl⟩ := length_eq_six (by simpa using hv1.length_eq)
  obtain ⟨d0, d1, d2, d3, d4, d5, rfl⟩ := length_eq_six (by simpa using hv2.length_eq)
  obtain ⟨e0, e1, e2, e3, e4, e5, rfl⟩ := length_eq_six (by simpa using hv3.length_eq)
  obtain ⟨f0, f1, f2, f3, f4, f5, rfl⟩ := length_eq_six (by simpa using hv4.length_eq)
  obtain ⟨g0, g1, g2, g3, g4, g5, rfl⟩ := length_eq_six (by simpa using hv5.length_eq)
  have s0 := hsol 0 (by norm_num)
  have s1 := hsol 1 (by norm_num)
  have s2 := hsol 2 (by norm_num)
  have s3 := hsol 3 (by norm_num)
  have s4 := hsol 4 (by norm_num)
  have s5 := hsol 5 (by norm_num)
  simp only [List.getD_cons_zero, List.getD_cons_succ, Nat.reduceAdd,
    Nat.reduceMod] at s0 s1 s2 s3 s4 s5
  obtain ⟨hs00, hs01⟩ := s0
  obtain ⟨hs10, hs11⟩ := s1
  obtain ⟨hs20, hs21⟩ := s2
  obtain ⟨hs30, hs31⟩ := s3
  obtain ⟨hs40, hs41⟩ := s4
  obtain ⟨hs50, hs51⟩ := s5
  have hhs : ([[a5, a0, a1], [b5, b0, b1], [d5, d0, d1], [e5, e0, e1], [f5, f0, f1],
      [g5, g0, g1]] : List (List Nat)) =
      halves [c0, c1, c2, c3, c4, c5] [a5, b5, d5, e5, f5, g5] := by
    rw [hs00, hs01, hs10, hs11, hs20, hs21, hs30, hs31, hs40, hs41, hs50, hs51]
    rfl
  obtain ⟨hch0, hiv0, hrot0⟩ := complete_step hv0
  obtain ⟨hch1, hiv1, hrot1⟩ := complete_step hv1
  obtain ⟨hch2, hiv2, hrot2⟩ := complete_step hv2
  obtain ⟨hch3, hiv3, hrot3⟩ := complete_step hv3
  obtain ⟨hch4, hiv4, hrot4⟩ := complete_step hv4
  obtain ⟨hch5, hiv5, hrot5⟩ := complete_step hv5
  rw [all_puzzles, List.mem_flatMap]
  refine ⟨[a5, b5, d5, e5, f5, g5], mem_matchings.2 ⟨rfl, ?_⟩, ?_⟩
  · intro x hx
    have b0' : ∀ y ∈ ([a0, a1, a2, a3, a4, a5] : List Nat), y < 6 := fun y hy =>
      List.mem_range.1 (hv0.mem_iff.1 hy)
    have b1' : ∀ y ∈ ([b0, b1, b2, b3, b4, b5] : List Nat), y < 6 := fun y hy =>
      List.mem_range.1 (hv1.mem_iff.1 hy)
    have b2' : ∀ y ∈ ([d0, d1, d2, d3, d4, d5] : List Nat), y < 6 := fun y hy =>
      List.mem_range.1 (hv2.mem_iff.1 hy)
    have b3' : ∀ y ∈ ([e0, e1, e2, e3, e4, e5] : List Nat), y < 6 := fun y hy =>
      List.mem_range.1 (hv3.mem_iff.1 hy)
    have b4' : ∀ y ∈ ([f0, f1, f2, f3, f4, f5] : List Nat), y < 6 := fun y hy =>
      List.mem_range.1 (hv4.mem_iff.1 hy)
    have b5' : ∀ y ∈ ([g0, g1, g2, g3, g4, g5] : List Nat), y < 6 := fun y hy =>
      List.mem_range.1 (hv5.mem_iff.1 hy)
    simp only [List.mem_cons, List.not_mem_nil, or_false] at hx
    rcases hx with rfl | rfl | rfl | rfl | rfl | rfl
    · exact b0' _ (by simp)
    · exact b1' _ (by simp)
    · exact b2' _ (by simp)
    · exact b3' _ (by simp)
    · exact b4' _ (by simp)
    · exact b5' _ (by simp)
  · rw [mem_contribution, ← hhs]
    refine ⟨?_, [[a5, a0, a1, a2, a3, a4], [b5, b0, b1, b2, b3, b4],
      [d5, d0, d1, d2, d3, d4], [e5, e0, e1, e2, e3, e4], [f5, f0, f1, f2, f3, f4],
      [g5, g0, g1, g2, g3, g4]], ?_, ?_⟩
    · rw [List.all_eq_true]
      intro inner hin
      simp only [List.mem_cons, List.not_mem_nil, or_false] at hin
      rcases hin with rfl | rfl | rfl | rfl | rfl | rfl
      · exact hiv0
      · exact hiv1
      · exact hiv2
      · exact hiv3
      · exact hiv4
      · exact hiv5
    · rw [List.map_cons, List.map_cons, List.map_cons, List.map_cons, List.map_cons,
        List.map_cons, List.map_nil, mem_listProd]
      exact List.Forall₂.cons hch0 (List.Forall₂.cons hch1 (List.Forall₂.cons hch2
        (List.Forall₂.cons hch3 (List.Forall₂.cons hch4 (List.Forall₂.cons hch5
          List.Forall₂.nil)))))
    · rw [← hpack]
      refine (pack_congr ?_ (List.Perm.refl _) ?_).symm
      · exact List.Forall₂.cons hrot0 (List.Forall₂.cons hrot1 (List.Forall₂.cons hrot2
          (List.Forall₂.cons hrot3 (List.Forall₂.cons hrot4 (List.Forall₂.cons hrot5
            (List.Forall₂.cons (rotOf_refl _) List.Forall₂.nil))))))
      · intro t ht
        simp only [List.cons_append, List.nil_append, List.mem_cons,
          List.not_mem_nil, or_false] at ht
        rcases ht with rfl | rfl | rfl | rfl | rfl | rfl | rfl
        · exact hv0
        · exact hv1
        · exact hv2
        · exact hv3
        · exact hv4
        · exact hv5
        · exact hc

/-- C1: for every 0-aligned center tile, the identifiers yielded by
`all_puzzles(center)` are exactly the canonical identifiers of puzzles
solvable with that tile as center: an identifier is yielded iff some ring of
six valid tiles satisfies the Solved Arrangement constraints with this
center and packs, together with the center, to that identifier. -/
theorem C1_all_puzzles_sound_complete {center : List Nat} (hc : ValidTile center)
    (h0 : center.headD 9 = 0) (id : Nat) :
    id ∈ all_puzzles center ↔
      ∃ ring : List (List Nat), ring.length = 6 ∧ (∀ t ∈ ring, ValidTile t) ∧
        SolvedRing center ring ∧ pack (ring ++ [center]) = id := by
  constructor
  · intro hid
    exact all_puzzles_sound hc hid
  · rintro ⟨ring, hlen, hvalid, hsol, hpack⟩
    exact all_puzzles_complete hc hlen hvalid hsol hpack

/-- C1 witness: the equivalence instantiated at the identity center and the
identifier of the concrete solvable puzzle `tstP`. -/
theorem C1_witness :
    pack tstS ∈ all_puzzles [0, 1, 2, 3, 4, 5] ↔
      ∃ ring : List (List Nat), ring.length = 6 ∧ (∀ t ∈ ring, ValidTile t) ∧
        SolvedRing [0, 1, 2, 3, 4, 5] ring ∧
        pack (ring ++ [[0, 1, 2, 3, 4, 5]]) = pack tstS :=
  @C1_all_puzzles_sound_complete [0, 1, 2, 3, 4, 5] (by decide) rfl (pack tstS)


end DriveYaNuts
